import Mathlib

set_option maxRecDepth 8000

/-!
Shallow embedding of `maxAndPair` from
`src/02_bit_manipulation/04_max_AND.cpp`.

The C++ routine is

    int maxAndPair(vector<int>& arr) {
        int result = 0;
        int count;
        for (int bit = 31; bit >= 0; --bit) {
            int tempResult = result | (1 << bit);
            count = 0;
            for (int num : arr)
                if ((num & tempResult) == tempResult) count++;
            if (count >= 2) result = tempResult;
        }
        return result;
    }

Machine `int` values that are non-negative are embedded as `Nat`; the
bitwise operations on the 32-bit two's-complement representation coincide
with `Nat` operations on the representation read as a number below `2^32`
(in particular `1 << 31` is the representation `2^31`, and the equality
test in the inner loop is representation equality), so the loop is
embedded over `Nat` with the bit index running from 31 down to 0.
-/

/-- Inner `for (int num : arr)` loop: how many elements `num` satisfy
`(num & tempResult) == tempResult`. -/
def countSupersets (arr : List Nat) (mask : Nat) : Nat :=
  arr.countP (fun num => num &&& mask == mask)

/-- One iteration of the `bit` loop body, at bit position `bit`:
tentatively set the bit, count, and commit when `count >= 2`. -/
def maxAndStep (arr : List Nat) (result : Nat) (bit : Nat) : Nat :=
  let tempResult := result ||| (1 <<< bit)
  if 2 ≤ countSupersets arr tempResult then tempResult else result

/-- The `for (int bit = 31; bit >= 0; --bit)` loop: `maxAndLoop arr result
(b+1)` runs the body at bits `b, b-1, ..., 0` starting from accumulator
`result`. -/
def maxAndLoop (arr : List Nat) : Nat → Nat → Nat
  | result, 0 => result
  | result, b + 1 => maxAndLoop arr (maxAndStep arr result b) b

/-- `maxAndPair`: accumulator starts at 0 and the loop runs bits 31..0. -/
def maxAndPair (arr : List Nat) : Nat :=
  maxAndLoop arr 0 32

/-- Trace of the accumulator: `resultAfter arr k` is the value of `result`
after the first `k` iterations of the bit loop (iteration `k` processes
bit `31 - k`). -/
def resultAfter (arr : List Nat) : Nat → Nat
  | 0 => 0
  | k + 1 => maxAndStep arr (resultAfter arr k) (31 - k)

/-- Brute-force exhaustive pairwise scan: the list of `arr[i] & arr[j]`
over all index pairs `i ≠ j`. -/
def pairIndexAnds (arr : List Nat) : List Nat :=
  (List.range arr.length).flatMap (fun i =>
    (List.range arr.length).filterMap (fun j =>
      if i ≠ j then some (arr.getD i 0 &&& arr.getD j 0) else none))

/-- Brute-force maximum pairwise AND (0 when no pair exists). -/
def bruteForceMax (arr : List Nat) : Nat :=
  (pairIndexAnds arr).foldr max 0

/-!
State-threaded embedding for the frame property: the C++ function receives
the vector by reference, so we model the vector as explicit state threaded
through every loop, returning the final state next to the result. The
source contains no store to `arr`, so each read hands the state back
unchanged.
-/

/-- Inner counting loop with the vector threaded as state. -/
def countLoopSt (tempResult : Nat) : List Nat → Nat → Nat × List Nat
  | [], count => (count, [])
  | num :: rest, count =>
    let count1 := if num &&& tempResult == tempResult then count + 1 else count
    let r := countLoopSt tempResult rest count1
    (r.1, num :: r.2)

/-- Bit loop with the vector threaded as state. -/
def bitLoopSt : List Nat → Nat → Nat → Nat × List Nat
  | arr, result, 0 => (result, arr)
  | arr, result, b + 1 =>
    let tempResult := result ||| (1 <<< b)
    let c := countLoopSt tempResult arr 0
    bitLoopSt c.2 (if 2 ≤ c.1 then tempResult else result) b

/-- `maxAndPair` with the vector state made explicit. -/
def maxAndPairSt (arr : List Nat) : Nat × List Nat :=
  bitLoopSt arr 0 32

/-!
General bit-arithmetic helpers.
-/

/-- If `x &&& m = m` then `m ≤ x`. -/
lemma le_of_and_eq {x m : Nat} (h : x &&& m = m) : m ≤ x :=
  h ▸ Nat.and_le_left

/-- If every bit of `m` is a bit of `x`, then `x &&& m = m`. -/
lemma and_eq_of_testBit_subset {x m : Nat}
    (h : ∀ i, m.testBit i = true → x.testBit i = true) : x &&& m = m := by
  apply Nat.eq_of_testBit_eq
  intro i
  rw [Nat.testBit_land]
  cases hm : m.testBit i with
  | false => simp
  | true => simp [h i hm]

/-- If `x &&& m = m` then every bit of `m` is a bit of `x`. -/
lemma testBit_subset_of_and_eq {x m : Nat} (h : x &&& m = m) (i : Nat)
    (hi : m.testBit i = true) : x.testBit i = true := by
  have h2 := congrArg (fun t => t.testBit i) h
  simp only [Nat.testBit_land, hi, Bool.and_true] at h2
  exact h2

/-- Two common supersets of `m` have an AND that is at least `m`. -/
lemma le_and_of_superset {x y m : Nat} (hx : x &&& m = m) (hy : y &&& m = m) :
    m ≤ x &&& y := by
  apply le_of_and_eq
  apply and_eq_of_testBit_subset
  intro i hi
  rw [Nat.testBit_land, testBit_subset_of_and_eq hx i hi,
    testBit_subset_of_and_eq hy i hi]
  rfl

/-- `a ≤ a ||| b`. -/
lemma le_lor_left (a b : Nat) : a ≤ a ||| b := by
  apply le_of_and_eq
  apply and_eq_of_testBit_subset
  intro i hi
  simp [Nat.testBit_lor, hi]

/-- A number whose bits at positions `≥ w` are all clear is below `2 ^ w`. -/
lemma lt_two_pow_of_high_bits {x w : Nat}
    (h : ∀ i, w ≤ i → x.testBit i = false) : x < 2 ^ w := by
  by_contra hlt
  push_neg at hlt
  obtain ⟨i, hiw, hbit⟩ := Nat.ge_two_pow_implies_high_bit_true hlt
  rw [h i hiw] at hbit
  exact Bool.false_ne_true hbit

/-- A strict inequality yields a highest bit where the two numbers differ:
the larger has it, the smaller lacks it, and all higher bits agree. -/
lemma exists_highest_diff_bit {a b : Nat} (hab : a < b) :
    ∃ i, a.testBit i = false ∧ b.testBit i = true ∧
      ∀ j, i < j → a.testBit j = b.testBit j := by
  have hne : a ^^^ b ≠ 0 := fun h => absurd (Nat.xor_eq_zero.mp h) (Nat.ne_of_lt hab)
  obtain ⟨i, hbit, hhigh⟩ := Nat.exists_most_significant_bit hne
  rw [Nat.testBit_xor] at hbit
  have hagree : ∀ j, i < j → a.testBit j = b.testBit j := by
    intro j hj
    have h2 := hhigh j hj
    rw [Nat.testBit_xor] at h2
    cases h4 : a.testBit j <;> cases h5 : b.testBit j <;>
      simp [h4, h5] at h2 ⊢
  cases ha : a.testBit i with
  | false =>
    cases hb : b.testBit i with
    | false => rw [ha, hb] at hbit; simp at hbit
    | true => exact ⟨i, ha, hb, hagree⟩
  | true =>
    cases hb : b.testBit i with
    | false =>
      exact absurd (Nat.lt_of_testBit i hb ha fun j hj => (hagree j hj).symm)
        (Nat.lt_asymm hab)
    | true => rw [ha, hb] at hbit; simp at hbit

/-!
The loop and its trace.
-/

/-- Running the remaining `j` iterations from the trace value at `k`
reaches the trace value at 32, when `j + k = 32`. -/
lemma maxAndLoop_resultAfter (arr : List Nat) :
    ∀ j k, j + k = 32 →
      maxAndLoop arr (resultAfter arr k) j = resultAfter arr 32 := by
  intro j
  induction j with
  | zero =>
    intro k hk
    have h0 : k = 32 := by omega
    subst h0
    rfl
  | succ j ih =>
    intro k hk
    show maxAndLoop arr (maxAndStep arr (resultAfter arr k) j) j = _
    have hj : j = 31 - k := by omega
    have h1 : maxAndStep arr (resultAfter arr k) j = resultAfter arr (k + 1) := by
      rw [hj]
      rfl
    rw [h1]
    exact ih (k + 1) (by omega)

/-- `maxAndPair` is the last value of the trace. -/
lemma maxAndPair_eq_resultAfter (arr : List Nat) :
    maxAndPair arr = resultAfter arr 32 :=
  maxAndLoop_resultAfter arr 32 0 rfl

/-- One loop iteration either commits the tentative mask or keeps `result`. -/
lemma maxAndStep_eq_or (arr : List Nat) (r b : Nat) :
    maxAndStep arr r b = r ||| (1 <<< b) ∨ maxAndStep arr r b = r := by
  simp only [maxAndStep]
  split
  · exact Or.inl rfl
  · exact Or.inr rfl

/-- The commit case of one iteration. -/
lemma maxAndStep_commit (arr : List Nat) (r b : Nat)
    (h : 2 ≤ countSupersets arr (r ||| (1 <<< b))) :
    maxAndStep arr r b = r ||| (1 <<< b) := by
  simp only [maxAndStep]
  rw [if_pos h]

/-- The skip case of one iteration. -/
lemma maxAndStep_skip (arr : List Nat) (r b : Nat)
    (h : ¬ 2 ≤ countSupersets arr (r ||| (1 <<< b))) :
    maxAndStep arr r b = r := by
  simp only [maxAndStep]
  rw [if_neg h]

/-- An iteration at bit `b` does not change any other bit position. -/
lemma testBit_maxAndStep_of_ne (arr : List Nat) (r b i : Nat) (hib : i ≠ b) :
    (maxAndStep arr r b).testBit i = r.testBit i := by
  rcases maxAndStep_eq_or arr r b with h | h
  · rw [h, Nat.testBit_lor, Nat.one_shiftLeft,
      Nat.testBit_two_pow_of_ne (Ne.symm hib)]
    simp
  · rw [h]

/-- After `k` iterations only bit positions `≥ 32 - k` can be set:
iterations `0..k-1` process bits `31` down to `32 - k`. -/
lemma resultAfter_low_bits (arr : List Nat) :
    ∀ k, k ≤ 32 → ∀ i, i < 32 - k → (resultAfter arr k).testBit i = false := by
  intro k
  induction k with
  | zero => intro _ i _; exact Nat.zero_testBit i
  | succ k ih =>
    intro hk i hi
    show (maxAndStep arr (resultAfter arr k) (31 - k)).testBit i = false
    rw [testBit_maxAndStep_of_ne arr _ _ i (by omega)]
    exact ih (by omega) i (by omega)

/-- No bit position `≥ 32` is ever set in the trace. -/
lemma resultAfter_high_bits (arr : List Nat) :
    ∀ k i, 32 ≤ i → (resultAfter arr k).testBit i = false := by
  intro k
  induction k with
  | zero => intro i _; exact Nat.zero_testBit i
  | succ k ih =>
    intro i hi
    show (maxAndStep arr (resultAfter arr k) (31 - k)).testBit i = false
    rw [testBit_maxAndStep_of_ne arr _ _ i (by omega)]
    exact ih i hi

/-- Bits at positions `≥ 32 - k` are frozen after iteration `k`: later
iterations only touch lower positions. -/
lemma resultAfter_frozen (arr : List Nat) :
    ∀ j k, k ≤ j → j ≤ 32 → ∀ i, 32 - k ≤ i →
      (resultAfter arr j).testBit i = (resultAfter arr k).testBit i := by
  intro j
  induction j with
  | zero =>
    intro k hk _ i _
    have h0 : k = 0 := by omega
    subst h0
    rfl
  | succ j ih =>
    intro k hk hj i hi
    rcases Nat.eq_or_lt_of_le hk with heq | hlt
    · rw [heq]
    · show (maxAndStep arr (resultAfter arr j) (31 - j)).testBit i = _
      rw [testBit_maxAndStep_of_ne arr _ _ i (by omega)]
      exact ih k (by omega) (by omega) i hi

/-- Invariant: with at least two elements, at every point of the trace at
least two elements pass the superset test against the accumulator. -/
lemma countSupersets_resultAfter (arr : List Nat) (hlen : 2 ≤ arr.length) :
    ∀ k, 2 ≤ countSupersets arr (resultAfter arr k) := by
  intro k
  induction k with
  | zero =>
    have h0 : countSupersets arr (resultAfter arr 0) = arr.length := by
      apply List.countP_eq_length.mpr
      intro a _
      simp [resultAfter]
    rw [h0]
    exact hlen
  | succ k ih =>
    show 2 ≤ countSupersets arr (maxAndStep arr (resultAfter arr k) (31 - k))
    simp only [maxAndStep]
    split
    · assumption
    · exact ih

/-!
Counting versus pairs of distinct positions.
-/

/-- Two distinct positions whose elements satisfy `p` force `countP p ≥ 2`. -/
lemma two_le_countP_of_positions (p : Nat → Bool) :
    ∀ (l : List Nat) (i j : Nat) (hi : i < l.length) (hj : j < l.length),
      i ≠ j → p (l.get ⟨i, hi⟩) = true → p (l.get ⟨j, hj⟩) = true →
      2 ≤ l.countP p := by
  intro l
  induction l with
  | nil => intro i j hi _ _ _ _; exact absurd hi (by simp)
  | cons a t ih =>
    intro i j hi hj hij hpi hpj
    match i, j with
    | 0, 0 => exact absurd rfl hij
    | 0, jj + 1 =>
      have h1 : 0 < t.countP p := by
        apply List.countP_pos_iff.mpr
        exact ⟨t.get ⟨jj, by simpa using hj⟩,
          List.get_mem t jj (by simpa using hj), hpj⟩
      have hpa : p a = true := hpi
      rw [List.countP_cons_of_pos p t hpa]
      omega
    | ii + 1, 0 =>
      have h1 : 0 < t.countP p := by
        apply List.countP_pos_iff.mpr
        exact ⟨t.get ⟨ii, by simpa using hi⟩,
          List.get_mem t ii (by simpa using hi), hpi⟩
      have hpa : p a = true := hpj
      rw [List.countP_cons_of_pos p t hpa]
      omega
    | ii + 1, jj + 1 =>
      have h2 := ih ii jj (by simpa using hi) (by simpa using hj)
        (by omega) hpi hpj
      rw [List.countP_cons]
      omega

/-- `countP p ≥ 2` yields two distinct positions whose elements satisfy
`p`. -/
lemma positions_of_two_le_countP (p : Nat → Bool) :
    ∀ l : List Nat, 2 ≤ l.countP p →
      ∃ i j, ∃ hi : i < l.length, ∃ hj : j < l.length,
        i ≠ j ∧ p (l.get ⟨i, hi⟩) = true ∧ p (l.get ⟨j, hj⟩) = true := by
  intro l
  induction l with
  | nil => intro h; rw [List.countP_nil] at h; omega
  | cons a t ih =>
    intro h
    rw [List.countP_cons] at h
    by_cases hpa : p a = true
    · have h1 : 0 < t.countP p := by
        simp only [hpa, if_true] at h
        omega
      obtain ⟨b, hb, hpb⟩ := List.countP_pos_iff.mp h1
      obtain ⟨m, hm⟩ := List.mem_iff_get.mp hb
      refine ⟨0, m.1 + 1, by simp, by simp [m.2], by omega, hpa, ?_⟩
      have hget : (a :: t).get ⟨m.1 + 1, by simp [m.2]⟩ = t.get m := rfl
      rw [hget, hm]
      exact hpb
    · have h2 : 2 ≤ t.countP p := by
        have hfalse : p a = false := by
          cases hq : p a
          · rfl
          · exact absurd hq hpa
        rw [hfalse] at h
        simp at h
        omega
      obtain ⟨i, j, hi, hj, hij, hqi, hqj⟩ := ih h2
      exact ⟨i + 1, j + 1, by simpa using hi, by simpa using hj,
        by omega, hqi, hqj⟩

/-!
Achievability and optimality of the greedy accumulator.
-/

/-- At any point of the trace, with at least two input elements, two
distinct positions both contain every bit of the accumulator. -/
lemma exists_positions_superset (arr : List Nat) (hlen : 2 ≤ arr.length)
    (k : Nat) :
    ∃ i j, ∃ hi : i < arr.length, ∃ hj : j < arr.length, i ≠ j ∧
      arr.get ⟨i, hi⟩ &&& resultAfter arr k = resultAfter arr k ∧
      arr.get ⟨j, hj⟩ &&& resultAfter arr k = resultAfter arr k := by
  have h := countSupersets_resultAfter arr hlen k
  obtain ⟨i, j, hi, hj, hij, hpi, hpj⟩ :=
    positions_of_two_le_countP
      (fun num => num &&& resultAfter arr k == resultAfter arr k) arr h
  exact ⟨i, j, hi, hj, hij, by simpa using hpi, by simpa using hpj⟩

/-- Optimality: the AND of the elements at any two distinct positions is
at most the value `maxAndPair` returns. -/
lemma pair_le_maxAndPair (arr : List Nat) (hb : ∀ x ∈ arr, x < 2 ^ 32)
    (i j : Nat) (hi : i < arr.length) (hj : j < arr.length) (hij : i ≠ j) :
    arr.get ⟨i, hi⟩ &&& arr.get ⟨j, hj⟩ ≤ maxAndPair arr := by
  rw [maxAndPair_eq_resultAfter]
  by_contra hlt
  push_neg at hlt
  obtain ⟨b, hRb, hvb, hagree⟩ := exists_highest_diff_bit hlt
  have hv32 : arr.get ⟨i, hi⟩ &&& arr.get ⟨j, hj⟩ < 2 ^ 32 :=
    lt_of_le_of_lt Nat.and_le_left (hb _ (List.get_mem arr i hi))
  have hb32 : b < 32 := by
    by_contra hge
    push_neg at hge
    have h5 : arr.get ⟨i, hi⟩ &&& arr.get ⟨j, hj⟩ < 2 ^ b :=
      lt_of_lt_of_le hv32 (Nat.pow_le_pow_right (by omega) hge)
    rw [Nat.testBit_lt_two_pow h5] at hvb
    exact Bool.false_ne_true hvb
  have hk32 : 31 - b ≤ 32 := by omega
  have hsup : ∀ z : Nat,
      z &&& (arr.get ⟨i, hi⟩ &&& arr.get ⟨j, hj⟩) =
        arr.get ⟨i, hi⟩ &&& arr.get ⟨j, hj⟩ →
      z &&& (resultAfter arr (31 - b) ||| 1 <<< b) =
        (resultAfter arr (31 - b) ||| 1 <<< b) := by
    intro z hz
    apply and_eq_of_testBit_subset
    intro m hm
    rw [Nat.testBit_lor, Nat.one_shiftLeft, Nat.testBit_two_pow] at hm
    rcases Bool.or_eq_true_iff.mp hm with hm1 | hm1
    · have hm2 : b + 1 ≤ m := by
        by_contra hm3
        push_neg at hm3
        rw [resultAfter_low_bits arr (31 - b) hk32 m (by omega)] at hm1
        exact Bool.false_ne_true hm1
      have hfroz := resultAfter_frozen arr 32 (31 - b) (by omega)
        (le_refl 32) m (by omega)
      rw [← hfroz] at hm1
      have hvm : (arr.get ⟨i, hi⟩ &&& arr.get ⟨j, hj⟩).testBit m = true := by
        rw [← hagree m (by omega)]
        exact hm1
      exact testBit_subset_of_and_eq hz m hvm
    · have hbm : b = m := of_decide_eq_true hm1
      subst hbm
      exact testBit_subset_of_and_eq hz b hvb
  have hxsup := hsup (arr.get ⟨i, hi⟩)
    (by rw [← Nat.and_assoc, Nat.and_self])
  have hysup := hsup (arr.get ⟨j, hj⟩)
    (by rw [Nat.and_comm (arr.get ⟨i, hi⟩) (arr.get ⟨j, hj⟩),
      ← Nat.and_assoc, Nat.and_self])
  have hcommit : 2 ≤ countSupersets arr
      (resultAfter arr (31 - b) ||| 1 <<< b) :=
    two_le_countP_of_positions _ arr i j hi hj hij
      (by simpa using hxsup) (by simpa using hysup)
  have hstep : resultAfter arr (31 - b + 1) =
      resultAfter arr (31 - b) ||| 1 <<< b := by
    show maxAndStep arr (resultAfter arr (31 - b)) (31 - (31 - b)) = _
    have h7 : 31 - (31 - b) = b := by omega
    rw [h7]
    exact maxAndStep_commit arr _ b hcommit
  have hbit : (resultAfter arr (31 - b + 1)).testBit b = true := by
    rw [hstep, Nat.testBit_lor, Nat.one_shiftLeft, Nat.testBit_two_pow_self]
    simp
  have hfroz2 := resultAfter_frozen arr 32 (31 - b + 1) (by omega)
    (le_refl 32) b (by omega)
  rw [hfroz2, hbit] at hRb
  simp at hRb

/-!
Brute-force maximum: membership and `foldr max` bounds.
-/

/-- `getD` with a valid index is `get`. -/
lemma getD_eq_get_valid {l : List Nat} {i : Nat} (hi : i < l.length) :
    l.getD i 0 = l.get ⟨i, hi⟩ := by
  rw [List.getD_eq_getElem l 0 hi]
  exact (List.get_eq_getElem l ⟨i, hi⟩).symm

/-- Each member bounds `foldr max 0` from below. -/
lemma le_foldr_max {a : Nat} : ∀ l : List Nat, a ∈ l → a ≤ l.foldr max 0 := by
  intro l
  induction l with
  | nil => intro h; simp at h
  | cons x t ih =>
    intro h
    rw [List.foldr_cons]
    rcases List.mem_cons.mp h with h1 | h1
    · rw [h1]; exact le_max_left _ _
    · exact le_trans (ih h1) (le_max_right _ _)

/-- An upper bound on all members bounds `foldr max 0` from above. -/
lemma foldr_max_le {m : Nat} : ∀ l : List Nat, (∀ a ∈ l, a ≤ m) →
    l.foldr max 0 ≤ m := by
  intro l
  induction l with
  | nil => intro _; exact Nat.zero_le m
  | cons x t ih =>
    intro h
    rw [List.foldr_cons]
    exact max_le (h x (by simp)) (ih fun a ha => h a (by simp [ha]))

/-- Membership in the exhaustive pairwise scan list. -/
lemma mem_pairIndexAnds {arr : List Nat} {v : Nat} :
    v ∈ pairIndexAnds arr ↔
      ∃ i j, ∃ hi : i < arr.length, ∃ hj : j < arr.length, i ≠ j ∧
        v = arr.get ⟨i, hi⟩ &&& arr.get ⟨j, hj⟩ := by
  unfold pairIndexAnds
  simp only [List.mem_flatMap, List.mem_filterMap, List.mem_range]
  constructor
  · rintro ⟨i, hi, j, hj, hite⟩
    by_cases hij : i ≠ j
    · rw [if_pos hij] at hite
      refine ⟨i, j, hi, hj, hij, ?_⟩
      rw [← getD_eq_get_valid hi, ← getD_eq_get_valid hj]
      exact (Option.some_inj.mp hite).symm
    · rw [if_neg hij] at hite
      simp at hite
  · rintro ⟨i, j, hi, hj, hij, hv⟩
    refine ⟨i, hi, j, hj, ?_⟩
    rw [if_pos hij, getD_eq_get_valid hi, getD_eq_get_valid hj, hv]

/-- Greedy equals brute force, for at least two 32-bit-bounded elements. -/
lemma maxAndPair_eq_bruteForceMax (arr : List Nat) (hlen : 2 ≤ arr.length)
    (hb : ∀ x ∈ arr, x < 2 ^ 32) : maxAndPair arr = bruteForceMax arr := by
  apply Nat.le_antisymm
  · obtain ⟨i, j, hi, hj, hij, hxi, hxj⟩ :=
      exists_positions_superset arr hlen 32
    have hpairmem : arr.get ⟨i, hi⟩ &&& arr.get ⟨j, hj⟩ ∈ pairIndexAnds arr :=
      mem_pairIndexAnds.mpr ⟨i, j, hi, hj, hij, rfl⟩
    calc maxAndPair arr ≤ arr.get ⟨i, hi⟩ &&& arr.get ⟨j, hj⟩ := by
          rw [maxAndPair_eq_resultAfter]
          exact le_and_of_superset hxi hxj
      _ ≤ bruteForceMax arr := le_foldr_max _ hpairmem
  · apply foldr_max_le
    intro v hv
    obtain ⟨i, j, hi, hj, hij, hveq⟩ := mem_pairIndexAnds.mp hv
    rw [hveq]
    exact pair_le_maxAndPair arr hb i j hi hj hij

/-!
The state-threaded run returns the vector unchanged and computes the same
value as the functional embedding.
-/

/-- The inner state-threaded loop adds the superset count to its
accumulator and hands the list back unchanged. -/
lemma countLoopSt_eq (t : Nat) :
    ∀ (l : List Nat) (c : Nat),
      countLoopSt t l c = (c + countSupersets l t, l) := by
  intro l
  induction l with
  | nil => intro c; simp [countLoopSt, countSupersets]
  | cons num rest ih =>
    intro c
    simp only [countLoopSt, ih]
    unfold countSupersets
    rw [List.countP_cons]
    cases h : (num &&& t == t) with
    | true => simp [h]; omega
    | false => simp [h]

/-- The state-threaded bit loop computes `maxAndLoop` and hands the list
back unchanged. -/
lemma bitLoopSt_eq : ∀ (f : Nat) (arr : List Nat) (r : Nat),
    bitLoopSt arr r f = (maxAndLoop arr r f, arr) := by
  intro f
  induction f with
  | zero => intro arr r; rfl
  | succ b ih =>
    intro arr r
    simp only [bitLoopSt, countLoopSt_eq, Nat.zero_add, ih, maxAndLoop,
      maxAndStep]

/-!
Remaining invariants: the sign bit, short inputs, permutations.
-/

/-- With all elements below `2^31` (non-negative `int` values), no bit at
position `≥ 31` is ever committed, in particular not the sign bit. -/
lemma resultAfter_bits_below31 (arr : List Nat)
    (hb : ∀ x ∈ arr, x < 2 ^ 31) :
    ∀ k i, 31 ≤ i → (resultAfter arr k).testBit i = false := by
  intro k
  induction k with
  | zero => intro i _; exact Nat.zero_testBit i
  | succ k ih =>
    intro i hi
    cases k with
    | zero =>
      show (maxAndStep arr (resultAfter arr 0) 31).testBit i = false
      have hskip : maxAndStep arr (resultAfter arr 0) 31 = resultAfter arr 0 := by
        apply maxAndStep_skip
        intro hcommit
        have h1 : 0 < arr.countP (fun num =>
            num &&& (resultAfter arr 0 ||| 1 <<< 31) ==
              (resultAfter arr 0 ||| 1 <<< 31)) := by
          have h2 : 2 ≤ countSupersets arr (resultAfter arr 0 ||| 1 <<< 31) :=
            hcommit
          unfold countSupersets at h2
          omega
        obtain ⟨a, ha, hpa⟩ := List.countP_pos_iff.mp h1
        have hpa2 : a &&& (resultAfter arr 0 ||| 1 <<< 31) =
            (resultAfter arr 0 ||| 1 <<< 31) := by simpa using hpa
        have h31 : (resultAfter arr 0 ||| 1 <<< 31).testBit 31 = true := by
          rw [Nat.testBit_lor, Nat.one_shiftLeft, Nat.testBit_two_pow_self]
          simp
        have ha31 : a.testBit 31 = true := testBit_subset_of_and_eq hpa2 31 h31
        rw [Nat.testBit_lt_two_pow (hb a ha)] at ha31
        exact Bool.false_ne_true ha31
      rw [hskip]
      exact Nat.zero_testBit i
    | succ k2 =>
      show (maxAndStep arr (resultAfter arr (k2 + 1))
        (31 - (k2 + 1))).testBit i = false
      rw [testBit_maxAndStep_of_ne arr _ _ i (by omega)]
      exact ih i hi

/-- With fewer than two elements no commit ever fires: the accumulator
stays 0 through the whole trace. -/
lemma resultAfter_short (arr : List Nat) (h : arr.length < 2) :
    ∀ k, resultAfter arr k = 0 := by
  intro k
  induction k with
  | zero => rfl
  | succ k ih =>
    show maxAndStep arr (resultAfter arr k) (31 - k) = 0
    have hc : ¬ 2 ≤ countSupersets arr (resultAfter arr k ||| 1 <<< (31 - k)) := by
      intro h2
      have h3 : countSupersets arr (resultAfter arr k ||| 1 <<< (31 - k)) ≤
          arr.length := List.countP_le_length _
      omega
    rw [maxAndStep_skip arr (resultAfter arr k) (31 - k) hc]
    exact ih

/-- The superset count only depends on the multiset of elements. -/
lemma countSupersets_perm {arr arr2 : List Nat} (h : arr.Perm arr2)
    (m : Nat) : countSupersets arr m = countSupersets arr2 m :=
  h.countP_eq _

/-- The whole trace only depends on the multiset of elements. -/
lemma resultAfter_perm {arr arr2 : List Nat} (h : arr.Perm arr2) :
    ∀ k, resultAfter arr k = resultAfter arr2 k := by
  intro k
  induction k with
  | zero => rfl
  | succ k ih =>
    show maxAndStep arr (resultAfter arr k) (31 - k) =
      maxAndStep arr2 (resultAfter arr2 k) (31 - k)
    rw [ih]
    simp only [maxAndStep]
    rw [countSupersets_perm h]

/-!
Claim theorems.
-/

/-- Claim C1: for every input of non-negative 32-bit integers with at
least two elements, `maxAndPair` returns exactly the maximum over all
pairs of distinct positions `i ≠ j` of `arr[i] & arr[j]`: it equals the
brute-force exhaustive pairwise scan, some distinct pair attains it, and
no distinct pair exceeds it. -/
theorem maxAndPair_correct (arr : List Nat) (hlen : 2 ≤ arr.length)
    (hb : ∀ x ∈ arr, x < 2 ^ 31) :
    maxAndPair arr = bruteForceMax arr ∧
    (∃ i j, ∃ hi : i < arr.length, ∃ hj : j < arr.length, i ≠ j ∧
      arr.get ⟨i, hi⟩ &&& arr.get ⟨j, hj⟩ = maxAndPair arr) ∧
    (∀ i j, ∀ hi : i < arr.length, ∀ hj : j < arr.length, i ≠ j →
      arr.get ⟨i, hi⟩ &&& arr.get ⟨j, hj⟩ ≤ maxAndPair arr) := by
  have hb32 : ∀ x ∈ arr, x < 2 ^ 32 := fun x hx =>
    lt_trans (hb x hx) (by norm_num)
  refine ⟨maxAndPair_eq_bruteForceMax arr hlen hb32, ?_, ?_⟩
  · obtain ⟨i, j, hi, hj, hij, hxi, hxj⟩ :=
      exists_positions_superset arr hlen 32
    refine ⟨i, j, hi, hj, hij, Nat.le_antisymm ?_ ?_⟩
    · exact pair_le_maxAndPair arr hb32 i j hi hj hij
    · rw [maxAndPair_eq_resultAfter]
      exact le_and_of_superset hxi hxj
  · intro i j hi hj hij
    exact pair_le_maxAndPair arr hb32 i j hi hj hij

/-- Witness for claim C1 at the concrete input `[4, 8, 12, 16]`. -/
theorem maxAndPair_correct_witness :
    2 ≤ ([4, 8, 12, 16] : List Nat).length ∧
    (∀ x ∈ ([4, 8, 12, 16] : List Nat), x < 2 ^ 31) ∧
    (maxAndPair [4, 8, 12, 16] = bruteForceMax [4, 8, 12, 16] ∧
    (∃ i j, ∃ hi : i < ([4, 8, 12, 16] : List Nat).length,
        ∃ hj : j < ([4, 8, 12, 16] : List Nat).length, i ≠ j ∧
      ([4, 8, 12, 16] : List Nat).get ⟨i, hi⟩ &&&
        ([4, 8, 12, 16] : List Nat).get ⟨j, hj⟩ = maxAndPair [4, 8, 12, 16]) ∧
    (∀ i j, ∀ hi : i < ([4, 8, 12, 16] : List Nat).length,
        ∀ hj : j < ([4, 8, 12, 16] : List Nat).length, i ≠ j →
      ([4, 8, 12, 16] : List Nat).get ⟨i, hi⟩ &&&
        ([4, 8, 12, 16] : List Nat).get ⟨j, hj⟩ ≤
          maxAndPair [4, 8, 12, 16])) :=
  ⟨by decide, by decide, maxAndPair_correct [4, 8, 12, 16] (by decide) (by decide)⟩

/-- Claim C2, code evidence: with fewer than two elements the code has no
guard and returns the numeric default 0 (evaluated on the empty and a
singleton input), rather than signalling an error. -/
theorem maxAndPair_returns_zero_not_error :
    maxAndPair [] = 0 ∧ maxAndPair [5] = 0 := by decide

/-- Claim C3: on `[4, 8, 12, 16]` the routine returns 8, realized by
`8 &&& 12 = 8`, and does not return the commonly cited 12. -/
theorem maxAndPair_sample_eq_eight :
    maxAndPair [4, 8, 12, 16] = 8 ∧ (8 : Nat) &&& 12 = 8 ∧
    maxAndPair [4, 8, 12, 16] ≠ 12 := by decide

/-- Claim C4: across the 32 iterations the accumulator is monotonically
non-decreasing, and each iteration either leaves it unchanged or sets
exactly one additional bit, namely the currently processed bit `31 - k`,
which was previously clear. -/
theorem resultAfter_monotone_one_bit (arr : List Nat) (k : Nat)
    (hk : k < 32) :
    resultAfter arr k ≤ resultAfter arr (k + 1) ∧
    (resultAfter arr (k + 1) = resultAfter arr k ∨
      (resultAfter arr (k + 1) = resultAfter arr k ||| 1 <<< (31 - k) ∧
        (resultAfter arr k).testBit (31 - k) = false ∧
        (resultAfter arr (k + 1)).testBit (31 - k) = true)) := by
  have hstep : resultAfter arr (k + 1) =
      maxAndStep arr (resultAfter arr k) (31 - k) := rfl
  rcases maxAndStep_eq_or arr (resultAfter arr k) (31 - k) with h | h
  · constructor
    · rw [hstep, h]
      exact le_lor_left _ _
    · right
      refine ⟨by rw [hstep, h],
        resultAfter_low_bits arr k (by omega) (31 - k) (by omega), ?_⟩
      rw [hstep, h, Nat.testBit_lor, Nat.one_shiftLeft,
        Nat.testBit_two_pow_self]
      simp
  · constructor
    · rw [hstep, h]
    · left
      rw [hstep, h]

/-- Witness for claim C4 at `[4, 8, 12, 16]`, iteration 0. -/
theorem resultAfter_monotone_one_bit_witness :
    (0 : Nat) < 32 ∧
    (resultAfter [4, 8, 12, 16] 0 ≤ resultAfter [4, 8, 12, 16] (0 + 1) ∧
    (resultAfter [4, 8, 12, 16] (0 + 1) = resultAfter [4, 8, 12, 16] 0 ∨
      (resultAfter [4, 8, 12, 16] (0 + 1) =
          resultAfter [4, 8, 12, 16] 0 ||| 1 <<< (31 - 0) ∧
        (resultAfter [4, 8, 12, 16] 0).testBit (31 - 0) = false ∧
        (resultAfter [4, 8, 12, 16] (0 + 1)).testBit (31 - 0) = true))) :=
  ⟨by decide, resultAfter_monotone_one_bit [4, 8, 12, 16] 0 (by decide)⟩

/-- Claim C5: with at least two elements, after every iteration the
accumulator is jointly achievable by two distinct positions (both
elements contain all its bits), and a bit is committed (the trace moves
to the tentative mask) exactly when at least two elements contain all
bits of the cumulative tentative mask. -/
theorem resultAfter_achievable_commit_iff (arr : List Nat)
    (hlen : 2 ≤ arr.length) :
    (∀ k, k ≤ 32 →
      ∃ i j, ∃ hi : i < arr.length, ∃ hj : j < arr.length, i ≠ j ∧
        arr.get ⟨i, hi⟩ &&& resultAfter arr k = resultAfter arr k ∧
        arr.get ⟨j, hj⟩ &&& resultAfter arr k = resultAfter arr k) ∧
    (∀ k, k < 32 →
      (resultAfter arr (k + 1) = resultAfter arr k ||| 1 <<< (31 - k) ↔
        2 ≤ countSupersets arr (resultAfter arr k ||| 1 <<< (31 - k)))) := by
  constructor
  · intro k _
    exact exists_positions_superset arr hlen k
  · intro k hk
    constructor
    · intro heq
      by_contra hc
      have hskip := maxAndStep_skip arr (resultAfter arr k) (31 - k) hc
      have hstep : resultAfter arr (k + 1) =
          maxAndStep arr (resultAfter arr k) (31 - k) := rfl
      rw [hstep, hskip] at heq
      have h2 := congrArg (fun t => t.testBit (31 - k)) heq
      simp only [Nat.testBit_lor, Nat.one_shiftLeft, Nat.testBit_two_pow_self,
        Bool.or_true] at h2
      rw [resultAfter_low_bits arr k (by omega) (31 - k) (by omega)] at h2
      exact Bool.false_ne_true h2
    · intro hc
      show maxAndStep arr (resultAfter arr k) (31 - k) = _
      exact maxAndStep_commit arr _ _ hc

/-- Witness for claim C5 at the concrete input `[4, 8, 12, 16]`. -/
theorem resultAfter_achievable_commit_iff_witness :
    2 ≤ ([4, 8, 12, 16] : List Nat).length ∧
    ((∀ k, k ≤ 32 →
      ∃ i j, ∃ hi : i < ([4, 8, 12, 16] : List Nat).length,
          ∃ hj : j < ([4, 8, 12, 16] : List Nat).length, i ≠ j ∧
        ([4, 8, 12, 16] : List Nat).get ⟨i, hi⟩ &&&
            resultAfter [4, 8, 12, 16] k = resultAfter [4, 8, 12, 16] k ∧
        ([4, 8, 12, 16] : List Nat).get ⟨j, hj⟩ &&&
            resultAfter [4, 8, 12, 16] k = resultAfter [4, 8, 12, 16] k) ∧
    (∀ k, k < 32 →
      (resultAfter [4, 8, 12, 16] (k + 1) =
          resultAfter [4, 8, 12, 16] k ||| 1 <<< (31 - k) ↔
        2 ≤ countSupersets [4, 8, 12, 16]
          (resultAfter [4, 8, 12, 16] k ||| 1 <<< (31 - k))))) :=
  ⟨by decide, resultAfter_achievable_commit_iff [4, 8, 12, 16] (by decide)⟩

/-- Claim C6: the result is invariant under any permutation of the input
sequence — it depends only on the multiset of values. -/
theorem maxAndPair_perm_invariant (arr arr2 : List Nat)
    (h : arr.Perm arr2) : maxAndPair arr = maxAndPair arr2 := by
  rw [maxAndPair_eq_resultAfter, maxAndPair_eq_resultAfter]
  exact resultAfter_perm h 32

/-- Witness for claim C6: a concrete reordering. -/
theorem maxAndPair_perm_invariant_witness :
    ([4, 8, 12, 16] : List Nat).Perm [16, 12, 8, 4] ∧
    maxAndPair [4, 8, 12, 16] = maxAndPair [16, 12, 8, 4] :=
  ⟨by decide, maxAndPair_perm_invariant [4, 8, 12, 16] [16, 12, 8, 4] (by decide)⟩

/-- Claim C7: for every non-negative value `x`, the routine returns
exactly `x` on the two-element input `[x, x]`. -/
theorem maxAndPair_pair_self (x : Nat) (hx : x < 2 ^ 31) :
    maxAndPair [x, x] = x := by
  have hget : ∀ m, ∀ hm : m < ([x, x] : List Nat).length,
      ([x, x] : List Nat).get ⟨m, hm⟩ = x := by
    intro m hm
    simp only [List.length_cons, List.length_nil] at hm
    interval_cases m <;> rfl
  have hb32 : ∀ a ∈ [x, x], a < 2 ^ 32 := by
    intro a ha
    have hax : a = x := by
      rcases List.mem_cons.mp ha with h1 | h1
      · exact h1
      · simpa using h1
    rw [hax]
    calc x < 2 ^ 31 := hx
      _ < 2 ^ 32 := by norm_num
  apply Nat.le_antisymm
  · obtain ⟨i, j, hi, hj, hij, hxi, hxj⟩ :=
      exists_positions_superset [x, x] (by simp) 32
    rw [maxAndPair_eq_resultAfter]
    rw [hget i hi] at hxi
    exact le_of_and_eq hxi
  · have h1 := pair_le_maxAndPair [x, x] hb32 0 1 (by simp) (by simp)
      (by omega)
    rw [hget 0 (by simp), hget 1 (by simp), Nat.and_self] at h1
    exact h1

/-- Witness for claim C7 at `x = 7`. -/
theorem maxAndPair_pair_self_witness :
    (7 : Nat) < 2 ^ 31 ∧ maxAndPair [7, 7] = 7 :=
  ⟨by decide, maxAndPair_pair_self 7 (by decide)⟩

/-- Claim C8: the call has no side effects — the state-threaded run hands
the input vector back unchanged (same elements, same length) and its
result is the pure function of the input. -/
theorem maxAndPairSt_frame (arr : List Nat) :
    (maxAndPairSt arr).2 = arr ∧ (maxAndPairSt arr).1 = maxAndPair arr := by
  unfold maxAndPairSt maxAndPair
  rw [bitLoopSt_eq 32 arr 0]
  exact ⟨rfl, rfl⟩

/-- Claim C9: for non-negative 32-bit inputs the result lies in
`[0, 2^32 - 1]` (being a `Nat` it is never negative); the sign bit
(bit 31) is never set — the result is even below `2^31` — despite the
iteration at bit 31 forming `result | (1 << 31)`. -/
theorem maxAndPair_in_range (arr : List Nat) (hb : ∀ x ∈ arr, x < 2 ^ 31) :
    maxAndPair arr < 2 ^ 31 ∧ maxAndPair arr ≤ 2 ^ 32 - 1 ∧
    (maxAndPair arr).testBit 31 = false := by
  have h1 : maxAndPair arr < 2 ^ 31 := by
    rw [maxAndPair_eq_resultAfter]
    exact lt_two_pow_of_high_bits
      (fun i hi => resultAfter_bits_below31 arr hb 32 i hi)
  refine ⟨h1, by omega, ?_⟩
  rw [maxAndPair_eq_resultAfter]
  exact resultAfter_bits_below31 arr hb 32 31 (le_refl 31)

/-- Witness for claim C9 at the concrete input `[4, 8, 12, 16]`. -/
theorem maxAndPair_in_range_witness :
    (∀ x ∈ ([4, 8, 12, 16] : List Nat), x < 2 ^ 31) ∧
    (maxAndPair [4, 8, 12, 16] < 2 ^ 31 ∧
      maxAndPair [4, 8, 12, 16] ≤ 2 ^ 32 - 1 ∧
      (maxAndPair [4, 8, 12, 16]).testBit 31 = false) :=
  ⟨by decide, maxAndPair_in_range [4, 8, 12, 16] (by decide)⟩

/-- Claim C10: with fewer than two elements the commit condition
`count >= 2` can never be satisfied, so the accumulator keeps its initial
value and `maxAndPair` returns 0. -/
theorem maxAndPair_short_input (arr : List Nat) (h : arr.length < 2) :
    maxAndPair arr = 0 := by
  rw [maxAndPair_eq_resultAfter]
  exact resultAfter_short arr h 32

/-- Witness for claim C10 at the singleton input `[5]`. -/
theorem maxAndPair_short_input_witness :
    ([5] : List Nat).length < 2 ∧ maxAndPair [5] = 0 :=
  ⟨by decide, maxAndPair_short_input [5] (by decide)⟩
